import Mathlib

/-!
Verification of the Twitch chat line parser
(`src/chatbot/src/connect/twitch_chat/parsing.rs`).

Strings are modelled as lists of Unicode scalar values (`List Char`).
Rust indexes strings by UTF-8 byte offsets, so byte offsets are modelled
explicitly via `Char.utf8Size`; a slice taken at a byte offset that is not
a scalar boundary panics in Rust, which the model renders as the
`ParseResult.panicked` outcome.
-/

namespace Twitch

/-- UTF-8 byte length of a list of scalars, as Rust's `str::len`. -/
def utf8Len : List Char → Nat
  | [] => 0
  | c :: cs => c.utf8Size + utf8Len cs

/-- Rust's `str::char_indices` starting from byte offset `off`:
the scalars paired with their starting byte offsets. -/
def charIndicesFrom (off : Nat) : List Char → List (Nat × Char)
  | [] => []
  | c :: cs => (off, c) :: charIndicesFrom (off + c.utf8Size) cs

/-- Drop the first `n` BYTES of a scalar list; `none` when `n` overruns the
string or falls strictly inside a multi-byte scalar (a Rust slicing panic). -/
def byteDrop : List Char → Nat → Option (List Char)
  | cs, 0 => some cs
  | [], Nat.succ _ => none
  | c :: cs, Nat.succ n => if c.utf8Size ≤ n + 1 then byteDrop cs (n + 1 - c.utf8Size) else none

/-- Take the first `n` BYTES of a scalar list; `none` on overrun or when `n`
falls strictly inside a multi-byte scalar. -/
def byteTake : List Char → Nat → Option (List Char)
  | _, 0 => some []
  | [], Nat.succ _ => none
  | c :: cs, Nat.succ n =>
      if c.utf8Size ≤ n + 1 then (byteTake cs (n + 1 - c.utf8Size)).map (c :: ·) else none

/-- Rust's byte-range slice `&s[a..b]`; `none` models the slicing panic. -/
def byteSlice (cs : List Char) (a b : Nat) : Option (List Char) :=
  if a ≤ b then (byteDrop cs a).bind (fun t => byteTake t (b - a)) else none

/-- Unicode White_Space property, as Rust's `char::is_whitespace`. -/
def is_whitespace (c : Char) : Bool :=
  (0x09 ≤ c.toNat && c.toNat ≤ 0x0D) || c.toNat = 0x20 || c.toNat = 0x85 ||
  c.toNat = 0xA0 || c.toNat = 0x1680 || (0x2000 ≤ c.toNat && c.toNat ≤ 0x200A) ||
  c.toNat = 0x2028 || c.toNat = 0x2029 || c.toNat = 0x202F || c.toNat = 0x205F ||
  c.toNat = 0x3000

/-- ASCII whitespace, as Rust's `char::is_ascii_whitespace`. -/
def is_ascii_whitespace (c : Char) : Bool :=
  c = ' ' || c = '\t' || c = '\n' || c = '\x0c' || c = '\r'

/-- Rust's `str::trim`: strip scalars with the White_Space property from
both ends. -/
def trim (cs : List Char) : List Char :=
  ((cs.dropWhile is_whitespace).reverse.dropWhile is_whitespace).reverse

/-- `MessageInfo` of `parsing.rs`. -/
structure MessageInfo where
  user : List Char
  text : List Char
deriving DecidableEq, Repr

/-- `MessageType` of `parsing.rs`. -/
inductive MessageType where
  | UserMessage : MessageInfo → MessageType
  | PingMessage : List Char → MessageType
deriving DecidableEq, Repr

/-- Outcome of a parser call: `ok` for `Ok(...)`, `unknownMessageType` for
`Err(ParseMessageTypeError::UnknownMessageType)`, and `panicked` for a Rust
panic (an out-of-bounds or non-boundary byte slice). -/
inductive ParseResult where
  | ok : MessageType → ParseResult
  | unknownMessageType : ParseResult
  | panicked : ParseResult
deriving DecidableEq, Repr

/-- `ParsingState` of `from_text_message`. -/
inductive ParsingState where
  | UserName
  | AdditionalUserInfo
  | MessageToken
  | Channel
  | MessageText
deriving DecidableEq, Repr

/-- The `for (i, codepoint) in raw_message.char_indices()` loop of
`from_text_message`, one constructor case per `ParsingState` arm.
`raw` is the whole input (the Rust slices are taken from it by byte
offset), the first list argument is the remaining `char_indices` stream,
then the current state, `user_name`, and `marker`. -/
def ftmGo (raw : List Char) :
    List (Nat × Char) → ParsingState → List Char → Nat → ParseResult
  | [], _, _, _ => .unknownMessageType
  | (i, c) :: rest, ParsingState.UserName, user_name, marker =>
      if c = ':' then ftmGo raw rest .UserName user_name (i + 1)
      else if c = ' ' then .unknownMessageType
      else if c = '!' then
        match byteSlice raw marker i with
        | some u => ftmGo raw rest .AdditionalUserInfo u marker
        | none => .panicked
      else ftmGo raw rest .UserName user_name marker
  | (i, c) :: rest, ParsingState.AdditionalUserInfo, user_name, marker =>
      if c = ' ' then ftmGo raw rest .MessageToken user_name (i + 1)
      else ftmGo raw rest .AdditionalUserInfo user_name marker
  | (i, c) :: rest, ParsingState.MessageToken, user_name, marker =>
      if c = ' ' then
        match byteSlice raw marker i with
        | some token =>
            if token = "PRIVMSG".toList then ftmGo raw rest .Channel user_name marker
            else .unknownMessageType
        | none => .panicked
      else ftmGo raw rest .MessageToken user_name marker
  | (_i, c) :: rest, ParsingState.Channel, user_name, marker =>
      if c = ' ' then ftmGo raw rest .MessageText user_name marker
      else ftmGo raw rest .Channel user_name marker
  | (i, _) :: _, ParsingState.MessageText, user_name, _ =>
      match byteDrop raw (i + 1) with
      | some body => .ok (.UserMessage ⟨user_name, trim body⟩)
      | none => .panicked

/-- `MessageType::from_text_message`: scan from state `UserName` with
`user_name = &raw_message[0..0]` (the empty slice) and `marker = 0`. -/
def from_text_message (raw_message : List Char) : ParseResult :=
  ftmGo raw_message (charIndicesFrom 0 raw_message) ParsingState.UserName [] 0

/-- `MessageType::from_ping_message`: `strip_prefix("PING :")`. -/
def from_ping_message (raw_message : List Char) : ParseResult :=
  if ("PING :".toList).isPrefixOf raw_message then
    .ok (.PingMessage (raw_message.drop 6))
  else .unknownMessageType

/-- `MessageType::parse_from_str`: dispatch on a leading `:`. -/
def parse_from_str (s : List Char) : ParseResult :=
  if s.head? = some ':' then from_text_message s else from_ping_message s

/-- `FromStr::from_str` delegates to `parse_from_str`. -/
def from_str (s : List Char) : ParseResult :=
  parse_from_str s

/-- The nickname the scan captures: the part of the pre-`!` prefix after its
last `:` (the whole prefix when it has no `:`). -/
def afterLastColon (cs : List Char) : List Char :=
  (cs.reverse.takeWhile (fun c => c ≠ ':')).reverse

/-- Value of `marker` after the `UserName` state has scanned `seg` starting
at byte offset `off` with current marker `m`: each `:` sets it to the offset
just past that `:`. -/
def markerAfterRun (off m : Nat) : List Char → Nat
  | [] => m
  | c :: cs => markerAfterRun (off + c.utf8Size) (if c = ':' then off + 1 else m) cs

/-- Split-form account of the scan from state `MessageText` on: the next
scalar is skipped (one byte past its START is sliced, panicking when it is
multi-byte) and the remainder is trimmed. -/
def specMessageText (u : List Char) : List Char → ParseResult
  | [] => .unknownMessageType
  | b :: body =>
      if b.utf8Size = 1 then .ok (.UserMessage ⟨u, trim body⟩) else .panicked

/-- Split-form account of the scan from state `Channel` on. -/
def specChannel (u : List Char) (r3 : List Char) : ParseResult :=
  match r3.dropWhile (fun c => c ≠ ' ') with
  | [] => .unknownMessageType
  | _ :: r4 => specMessageText u r4

/-- Split-form account of the scan from state `MessageToken` on. -/
def specToken (u : List Char) (r2 : List Char) : ParseResult :=
  match r2.dropWhile (fun c => c ≠ ' ') with
  | [] => .unknownMessageType
  | _ :: r3 =>
      if r2.takeWhile (fun c => c ≠ ' ') = "PRIVMSG".toList then specChannel u r3
      else .unknownMessageType

/-- Split-form account of the scan from state `AdditionalUserInfo` on. -/
def specAUI (u : List Char) (r1 : List Char) : ParseResult :=
  match r1.dropWhile (fun c => c ≠ ' ') with
  | [] => .unknownMessageType
  | _ :: r2 => specToken u r2

/-- Split-form reference account of `from_text_message`. -/
def textSpec (raw : List Char) : ParseResult :=
  if ' ' ∈ raw.takeWhile (fun c => c ≠ '!') then .unknownMessageType
  else match raw.dropWhile (fun c => c ≠ '!') with
  | [] => .unknownMessageType
  | _ :: r1 => specAUI (afterLastColon (raw.takeWhile (fun c => c ≠ '!'))) r1

/-- Whether `p` occurs as a contiguous substring of `s`. -/
def hasSub (p : List Char) : List Char → Bool
  | [] => p.isEmpty
  | c :: t => p.isPrefixOf (c :: t) || hasSub p t

/-- The segment of `s` strictly between its first `:` and the first `!`
after it (reading the claim's "substring between the first `:` and the
first `!`"). -/
def betweenFirstColonBang (s : List Char) : List Char :=
  ((s.dropWhile (fun c => c ≠ ':')).tail).takeWhile (fun c => c ≠ '!')

@[simp] theorem utf8Len_nil : utf8Len [] = 0 := rfl

@[simp] theorem utf8Len_cons (c : Char) (cs : List Char) :
    utf8Len (c :: cs) = c.utf8Size + utf8Len cs := rfl

@[simp] theorem utf8Len_append (xs ys : List Char) :
    utf8Len (xs ++ ys) = utf8Len xs + utf8Len ys := by
  induction xs with
  | nil => simp
  | cons c cs ih => simp [utf8Len, ih, Nat.add_assoc]

@[simp] theorem charIndicesFrom_nil (off : Nat) : charIndicesFrom off [] = [] := rfl

@[simp] theorem charIndicesFrom_cons (off : Nat) (c : Char) (cs : List Char) :
    charIndicesFrom off (c :: cs) = (off, c) :: charIndicesFrom (off + c.utf8Size) cs := rfl

theorem charIndicesFrom_append (off : Nat) (xs ys : List Char) :
    charIndicesFrom off (xs ++ ys)
      = charIndicesFrom off xs ++ charIndicesFrom (off + utf8Len xs) ys := by
  induction xs generalizing off with
  | nil => simp
  | cons c cs ih => simp [ih, Nat.add_assoc]

@[simp] theorem byteDrop_zero (cs : List Char) : byteDrop cs 0 = some cs := by
  cases cs <;> rfl

@[simp] theorem byteTake_zero (cs : List Char) : byteTake cs 0 = some [] := by
  cases cs <;> rfl

theorem byteDrop_append (xs ys : List Char) (k : Nat) :
    byteDrop (xs ++ ys) (utf8Len xs + k) = byteDrop ys k := by
  induction xs with
  | nil => simp
  | cons c cs ih =>
    have hpos : 0 < c.utf8Size := Char.utf8Size_pos c
    have hform : c.utf8Size + utf8Len cs + k = (c.utf8Size + utf8Len cs + k - 1) + 1 := by
      omega
    rw [utf8Len_cons, List.cons_append, hform, byteDrop]
    have hle : c.utf8Size ≤ (c.utf8Size + utf8Len cs + k - 1) + 1 := by omega
    rw [if_pos hle]
    have : (c.utf8Size + utf8Len cs + k - 1) + 1 - c.utf8Size = utf8Len cs + k := by omega
    rw [this, ih]

theorem byteTake_append (xs ys : List Char) :
    byteTake (xs ++ ys) (utf8Len xs) = some xs := by
  induction xs with
  | nil => simp
  | cons c cs ih =>
    have hpos : 0 < c.utf8Size := Char.utf8Size_pos c
    have hform : c.utf8Size + utf8Len cs = (c.utf8Size + utf8Len cs - 1) + 1 := by omega
    rw [utf8Len_cons, List.cons_append, hform, byteTake]
    have hle : c.utf8Size ≤ (c.utf8Size + utf8Len cs - 1) + 1 := by omega
    rw [if_pos hle]
    have : (c.utf8Size + utf8Len cs - 1) + 1 - c.utf8Size = utf8Len cs := by omega
    rw [this, ih]
    rfl

theorem byteSlice_append (done seg rest : List Char) :
    byteSlice (done ++ (seg ++ rest)) (utf8Len done) (utf8Len done + utf8Len seg)
      = some seg := by
  unfold byteSlice
  rw [if_pos (Nat.le_add_right _ _)]
  have hd : byteDrop (done ++ (seg ++ rest)) (utf8Len done + 0) = some (seg ++ rest) := by
    rw [byteDrop_append done (seg ++ rest) 0, byteDrop_zero]
  rw [Nat.add_zero] at hd
  rw [hd]
  show byteTake (seg ++ rest) (utf8Len done + utf8Len seg - utf8Len done) = some seg
  rw [Nat.add_sub_cancel_left, byteTake_append]

@[simp] theorem utf8Size_space : (' ' : Char).utf8Size = 1 := by decide

@[simp] theorem utf8Size_bang : ('!' : Char).utf8Size = 1 := by decide

@[simp] theorem utf8Size_colon : (':' : Char).utf8Size = 1 := by decide

theorem dropWhile_head_false {α : Type} {p : α → Bool} {l r : List α} {c : α}
    (h : l.dropWhile p = c :: r) : p c = false := by
  induction l with
  | nil => simp at h
  | cons a as ih =>
    rw [List.dropWhile_cons] at h
    by_cases hp : p a
    · rw [if_pos hp] at h; exact ih h
    · rw [if_neg hp] at h
      injection h with h1 _
      subst h1
      simpa using hp

theorem byteDrop_cons_one (c : Char) (z : List Char) :
    byteDrop (c :: z) 1 = if c.utf8Size = 1 then some z else none := by
  have hpos : 0 < c.utf8Size := Char.utf8Size_pos c
  show byteDrop (c :: z) (Nat.succ 0) = _
  rw [byteDrop]
  by_cases h : c.utf8Size = 1
  · rw [if_pos (by omega), if_pos h, h]
    simp
  · rw [if_neg (by omega), if_neg h]

theorem markerAfterRun_no_colon (off m : Nat) (seg : List Char) (h : ':' ∉ seg) :
    markerAfterRun off m seg = m := by
  induction seg generalizing off m with
  | nil => rfl
  | cons c cs ih =>
    have hc : c ≠ ':' := fun hh => h (hh ▸ List.mem_cons_self c cs)
    rw [markerAfterRun, if_neg hc]
    exact ih _ _ (fun hh => h (List.mem_cons_of_mem c hh))

theorem markerAfterRun_append_colon (off m : Nat) (a b : List Char) (h : ':' ∉ b) :
    markerAfterRun off m (a ++ ':' :: b) = off + utf8Len a + 1 := by
  induction a generalizing off m with
  | nil =>
    rw [List.nil_append, markerAfterRun, if_pos rfl,
      markerAfterRun_no_colon _ _ _ h]
    simp
  | cons c a' ih =>
    rw [List.cons_append, markerAfterRun, ih]
    simp [utf8Len]
    omega

theorem afterLastColon_no_colon {pre : List Char} (h : ':' ∉ pre) :
    afterLastColon pre = pre := by
  unfold afterLastColon
  rw [List.takeWhile_eq_self_iff.mpr, List.reverse_reverse]
  intro x hx
  have : x ∈ pre := by simpa using hx
  simp only [decide_eq_true_eq]
  exact fun hh => h (hh ▸ this)

theorem byteSlice_after_colon (a b rest : List Char) :
    byteSlice (a ++ ':' :: (b ++ rest)) (utf8Len a + 1) (utf8Len a + 1 + utf8Len b)
      = some b := by
  unfold byteSlice
  rw [if_pos (Nat.le_add_right _ _)]
  have hd : byteDrop (a ++ ':' :: (b ++ rest)) (utf8Len a + 1) = some (b ++ rest) := by
    rw [byteDrop_append a (':' :: (b ++ rest)) 1, byteDrop_cons_one]
    simp
  rw [hd]
  show byteTake (b ++ rest) (utf8Len a + 1 + utf8Len b - (utf8Len a + 1)) = some b
  rw [Nat.add_sub_cancel_left, byteTake_append]

theorem takeWhile_append_all {α : Type} (p : α → Bool) (xs ys : List α)
    (h : ∀ x ∈ xs, p x = true) :
    (xs ++ ys).takeWhile p = xs ++ ys.takeWhile p := by
  induction xs with
  | nil => simp
  | cons a as ih =>
    rw [List.cons_append, List.takeWhile_cons, if_pos (h a (List.mem_cons_self a as)),
      ih (fun x hx => h x (List.mem_cons_of_mem a hx)), List.cons_append]

theorem dropWhile_append_all {α : Type} (p : α → Bool) (xs ys : List α)
    (h : ∀ x ∈ xs, p x = true) :
    (xs ++ ys).dropWhile p = ys.dropWhile p := by
  induction xs with
  | nil => simp
  | cons a as ih =>
    rw [List.cons_append, List.dropWhile_cons, if_pos (h a (List.mem_cons_self a as)),
      ih (fun x hx => h x (List.mem_cons_of_mem a hx))]

theorem afterLastColon_append_colon (a b : List Char) (h : ':' ∉ b) :
    afterLastColon (a ++ ':' :: b) = b := by
  unfold afterLastColon
  rw [List.reverse_append, List.reverse_cons, List.append_assoc, List.singleton_append]
  rw [takeWhile_append_all (fun c => c ≠ ':') b.reverse (':' :: a.reverse)
    (fun x hx => by
      simp only [decide_eq_true_eq]
      intro hxc
      exact h (by simpa [hxc] using hx))]
  rw [List.takeWhile_cons, if_neg (by simp), List.append_nil, List.reverse_reverse]

theorem exists_last_colon {pre : List Char} (hc : ':' ∈ pre) :
    ∃ a b, pre = a ++ ':' :: b ∧ ':' ∉ b := by
  have hd : pre.reverse.dropWhile (fun c => c ≠ ':') ≠ [] := by
    rw [Ne, List.dropWhile_eq_nil_iff]
    push_neg
    exact ⟨':', by simpa using hc, by simp⟩
  obtain ⟨c, d', hcd⟩ := List.exists_cons_of_ne_nil hd
  have hcc : c = ':' := by
    have := dropWhile_head_false hcd
    simpa using this
  subst hcc
  have hsplit : pre.reverse.takeWhile (fun c => c ≠ ':') ++ ':' :: d' = pre.reverse := by
    rw [← hcd]
    exact List.takeWhile_append_dropWhile _ _
  have htc : ':' ∉ (pre.reverse.takeWhile (fun c => c ≠ ':')).reverse := by
    intro hmem
    have h3 : ':' ∈ pre.reverse.takeWhile (fun c => c ≠ ':') := by simpa using hmem
    have := List.mem_takeWhile_imp h3
    simp at this
  have h2 := congrArg List.reverse hsplit
  rw [List.reverse_reverse, List.reverse_append, List.reverse_cons, List.append_assoc,
    List.singleton_append] at h2
  exact ⟨d'.reverse, (pre.reverse.takeWhile (fun c => c ≠ ':')).reverse, h2.symm, htc⟩

/-- For the prefix scanned in state `UserName`, the slice from the final
marker to the offset of the first `!` is the part after the last `:`. -/
theorem marker_slice (pre rest : List Char) :
    byteSlice (pre ++ rest) (markerAfterRun 0 0 pre) (utf8Len pre)
      = some (afterLastColon pre) := by
  by_cases hc : ':' ∈ pre
  · obtain ⟨a, b, hpre, hb⟩ := exists_last_colon hc
    subst hpre
    rw [markerAfterRun_append_colon _ _ _ _ hb, afterLastColon_append_colon _ _ hb]
    have hlen : utf8Len (a ++ ':' :: b) = utf8Len a + 1 + utf8Len b := by
      rw [utf8Len_append, utf8Len_cons, utf8Size_colon]
      omega
    rw [Nat.zero_add, hlen, List.append_assoc, List.cons_append]
    exact byteSlice_after_colon a b rest
  · rw [markerAfterRun_no_colon _ _ _ hc, afterLastColon_no_colon hc]
    unfold byteSlice
    rw [if_pos (Nat.zero_le _), byteDrop_zero]
    show byteTake (pre ++ rest) (utf8Len pre - 0) = some pre
    rw [Nat.sub_zero, byteTake_append]

theorem ftmGo_nil (raw : List Char) (st : ParsingState) (u : List Char) (m : Nat) :
    ftmGo raw [] st u m = .unknownMessageType := by
  cases st <;> rfl

theorem ftmGo_userName_colon (raw : List Char) (l : List (Nat × Char)) (i : Nat)
    (u : List Char) (m : Nat) :
    ftmGo raw ((i, ':') :: l) .UserName u m = ftmGo raw l .UserName u (i + 1) := by
  simp [ftmGo]

theorem ftmGo_userName_space (raw : List Char) (l : List (Nat × Char)) (i : Nat)
    (u : List Char) (m : Nat) :
    ftmGo raw ((i, ' ') :: l) .UserName u m = .unknownMessageType := by
  simp [ftmGo]

theorem ftmGo_userName_bang (raw : List Char) (l : List (Nat × Char)) (i : Nat)
    (u : List Char) (m : Nat) :
    ftmGo raw ((i, '!') :: l) .UserName u m
      = match byteSlice raw m i with
        | some u' => ftmGo raw l .AdditionalUserInfo u' m
        | none => .panicked := by
  simp [ftmGo]

theorem ftmGo_userName_other (raw : List Char) (l : List (Nat × Char)) (i : Nat)
    (c : Char) (u : List Char) (m : Nat)
    (h1 : c ≠ ':') (h2 : c ≠ ' ') (h3 : c ≠ '!') :
    ftmGo raw ((i, c) :: l) .UserName u m = ftmGo raw l .UserName u m := by
  simp [ftmGo, h1, h2, h3]

theorem ftmGo_aui_space (raw : List Char) (l : List (Nat × Char)) (i : Nat)
    (u : List Char) (m : Nat) :
    ftmGo raw ((i, ' ') :: l) .AdditionalUserInfo u m
      = ftmGo raw l .MessageToken u (i + 1) := by
  simp [ftmGo]

theorem ftmGo_aui_other (raw : List Char) (l : List (Nat × Char)) (i : Nat)
    (c : Char) (u : List Char) (m : Nat) (h : c ≠ ' ') :
    ftmGo raw ((i, c) :: l) .AdditionalUserInfo u m
      = ftmGo raw l .AdditionalUserInfo u m := by
  simp [ftmGo, h]

theorem ftmGo_token_space (raw : List Char) (l : List (Nat × Char)) (i : Nat)
    (u : List Char) (m : Nat) :
    ftmGo raw ((i, ' ') :: l) .MessageToken u m
      = match byteSlice raw m i with
        | some token =>
            if token = "PRIVMSG".toList then ftmGo raw l .Channel u m
            else .unknownMessageType
        | none => .panicked := by
  simp [ftmGo]

theorem ftmGo_token_other (raw : List Char) (l : List (Nat × Char)) (i : Nat)
    (c : Char) (u : List Char) (m : Nat) (h : c ≠ ' ') :
    ftmGo raw ((i, c) :: l) .MessageToken u m = ftmGo raw l .MessageToken u m := by
  simp [ftmGo, h]

theorem ftmGo_channel_space (raw : List Char) (l : List (Nat × Char)) (i : Nat)
    (u : List Char) (m : Nat) :
    ftmGo raw ((i, ' ') :: l) .Channel u m = ftmGo raw l .MessageText u m := by
  simp [ftmGo]

theorem ftmGo_channel_other (raw : List Char) (l : List (Nat × Char)) (i : Nat)
    (c : Char) (u : List Char) (m : Nat) (h : c ≠ ' ') :
    ftmGo raw ((i, c) :: l) .Channel u m = ftmGo raw l .Channel u m := by
  simp [ftmGo, h]

theorem ftmGo_messageText (raw : List Char) (l : List (Nat × Char)) (i : Nat)
    (c : Char) (u : List Char) (m : Nat) :
    ftmGo raw ((i, c) :: l) .MessageText u m
      = match byteDrop raw (i + 1) with
        | some body => .ok (.UserMessage ⟨u, trim body⟩)
        | none => .panicked := by
  simp only [ftmGo]

/-- Running the `UserName` state over a segment without `!` and without a
space: the state and captured name are unchanged, the marker is tracked by
`markerAfterRun`. -/
theorem ftmGo_userName_run (raw seg : List Char) (l : List (Nat × Char))
    (off m : Nat) (u : List Char) (h1 : '!' ∉ seg) (h2 : ' ' ∉ seg) :
    ftmGo raw (charIndicesFrom off seg ++ l) .UserName u m
      = ftmGo raw l .UserName u (markerAfterRun off m seg) := by
  induction seg generalizing off m with
  | nil => rfl
  | cons c cs ih =>
    have hc1 : c ≠ '!' := fun hh => h1 (hh ▸ List.mem_cons_self c cs)
    have hc2 : c ≠ ' ' := fun hh => h2 (hh ▸ List.mem_cons_self c cs)
    have h1' : '!' ∉ cs := fun hh => h1 (List.mem_cons_of_mem c hh)
    have h2' : ' ' ∉ cs := fun hh => h2 (List.mem_cons_of_mem c hh)
    rw [charIndicesFrom_cons, List.cons_append]
    by_cases hc : c = ':'
    · subst hc
      rw [ftmGo_userName_colon, ih _ _ h1' h2', markerAfterRun, if_pos rfl,
        utf8Size_colon]
    · rw [ftmGo_userName_other _ _ _ _ _ _ hc hc2 hc1, ih _ _ h1' h2',
        markerAfterRun, if_neg hc]

/-- Running any of the three scan-to-next-space states over a space-free
segment leaves everything unchanged. -/
theorem ftmGo_skip_run (raw seg : List Char) (l : List (Nat × Char))
    (off m : Nat) (u : List Char) (st : ParsingState)
    (hst : st = .AdditionalUserInfo ∨ st = .MessageToken ∨ st = .Channel)
    (h : ' ' ∉ seg) :
    ftmGo raw (charIndicesFrom off seg ++ l) st u m = ftmGo raw l st u m := by
  induction seg generalizing off with
  | nil => rfl
  | cons c cs ih =>
    have hc : c ≠ ' ' := fun hh => h (hh ▸ List.mem_cons_self c cs)
    have h' : ' ' ∉ cs := fun hh => h (List.mem_cons_of_mem c hh)
    rw [charIndicesFrom_cons, List.cons_append]
    rcases hst with hst | hst | hst <;> subst hst
    · rw [ftmGo_aui_other _ _ _ _ _ _ hc]
      exact ih _ h'
    · rw [ftmGo_token_other _ _ _ _ _ _ hc]
      exact ih _ h'
    · rw [ftmGo_channel_other _ _ _ _ _ _ hc]
      exact ih _ h'

theorem ftmGo_messageText_spec (pre' r4 : List Char) (u : List Char) (m : Nat) :
    ftmGo (pre' ++ r4) (charIndicesFrom (utf8Len pre') r4) .MessageText u m
      = specMessageText u r4 := by
  cases r4 with
  | nil => rfl
  | cons b body =>
    rw [charIndicesFrom_cons, ftmGo_messageText]
    have hd : byteDrop (pre' ++ b :: body) (utf8Len pre' + 1) = byteDrop (b :: body) 1 :=
      byteDrop_append pre' (b :: body) 1
    rw [hd, byteDrop_cons_one]
    by_cases h : b.utf8Size = 1
    · rw [if_pos h]
      show ParseResult.ok _ = specMessageText u (b :: body)
      rw [specMessageText, if_pos h]
    · rw [if_neg h]
      show ParseResult.panicked = specMessageText u (b :: body)
      rw [specMessageText, if_neg h]

theorem mem_of_mem_takeWhile {α : Type} {p : α → Bool} {l : List α} {x : α}
    (h : x ∈ l.takeWhile p) : x ∈ l := by
  induction l with
  | nil => simp at h
  | cons a as ih =>
    rw [List.takeWhile_cons] at h
    by_cases hp : p a
    · rw [if_pos hp] at h
      rcases List.mem_cons.mp h with h1 | h1
      · exact h1 ▸ List.mem_cons_self a as
      · exact List.mem_cons_of_mem a (ih h1)
    · rw [if_neg hp] at h
      simp at h

theorem ftmGo_userName_bang_some (raw : List Char) (l : List (Nat × Char)) (i : Nat)
    (u : List Char) (m : Nat) (u' : List Char) (h : byteSlice raw m i = some u') :
    ftmGo raw ((i, '!') :: l) .UserName u m = ftmGo raw l .AdditionalUserInfo u' m := by
  rw [ftmGo_userName_bang, h]

theorem ftmGo_token_space_some (raw : List Char) (l : List (Nat × Char)) (i : Nat)
    (u : List Char) (m : Nat) (tok : List Char) (h : byteSlice raw m i = some tok) :
    ftmGo raw ((i, ' ') :: l) .MessageToken u m
      = if tok = "PRIVMSG".toList then ftmGo raw l .Channel u m
        else .unknownMessageType := by
  rw [ftmGo_token_space, h]

theorem ftmGo_channel_spec (pre' r3 : List Char) (u : List Char) (m : Nat) :
    ftmGo (pre' ++ r3) (charIndicesFrom (utf8Len pre') r3) .Channel u m
      = specChannel u r3 := by
  rcases hd : r3.dropWhile (fun c => c ≠ ' ') with _ | ⟨sp, r4⟩
  · have hns : ' ' ∉ r3 := by
      intro hmem
      have := List.dropWhile_eq_nil_iff.mp hd ' ' hmem
      simp at this
    have h0 := ftmGo_skip_run (pre' ++ r3) r3 [] (utf8Len pre') m u .Channel
      (Or.inr (Or.inr rfl)) hns
    rw [List.append_nil] at h0
    rw [h0, ftmGo_nil, specChannel, hd]
  · have hsp : sp = ' ' := by
      have := dropWhile_head_false hd
      simpa using this
    subst hsp
    have hsplit : r3.takeWhile (fun c => c ≠ ' ') ++ ' ' :: r4 = r3 := by
      rw [← hd]
      exact List.takeWhile_append_dropWhile _ _
    have hchan : ' ' ∉ r3.takeWhile (fun c => c ≠ ' ') := by
      intro hmem
      have := List.mem_takeWhile_imp hmem
      simp at this
    have hrhs : specChannel u r3 = specMessageText u r4 := by
      rw [specChannel, hd]
    rw [hrhs]
    conv_lhs => rw [← hsplit]
    rw [charIndicesFrom_append]
    rw [ftmGo_skip_run _ _ _ _ _ _ .Channel (Or.inr (Or.inr rfl)) hchan]
    rw [charIndicesFrom_cons, ftmGo_channel_space, utf8Size_space]
    have hre : pre' ++ (r3.takeWhile (fun c => c ≠ ' ') ++ ' ' :: r4)
        = (pre' ++ r3.takeWhile (fun c => c ≠ ' ') ++ [' ']) ++ r4 := by
      simp
    have hlen : utf8Len pre' + utf8Len (r3.takeWhile (fun c => c ≠ ' ')) + 1
        = utf8Len (pre' ++ r3.takeWhile (fun c => c ≠ ' ') ++ [' ']) := by
      simp [utf8Len]
      omega
    rw [hre, hlen]
    exact ftmGo_messageText_spec _ r4 u m

theorem ftmGo_token_spec (pre' r2 : List Char) (u : List Char) :
    ftmGo (pre' ++ r2) (charIndicesFrom (utf8Len pre') r2) .MessageToken u (utf8Len pre')
      = specToken u r2 := by
  rcases hd : r2.dropWhile (fun c => c ≠ ' ') with _ | ⟨sp, r3⟩
  · have hns : ' ' ∉ r2 := by
      intro hmem
      have := List.dropWhile_eq_nil_iff.mp hd ' ' hmem
      simp at this
    have h0 := ftmGo_skip_run (pre' ++ r2) r2 [] (utf8Len pre') (utf8Len pre') u
      .MessageToken (Or.inr (Or.inl rfl)) hns
    rw [List.append_nil] at h0
    rw [h0, ftmGo_nil, specToken, hd]
  · have hsp : sp = ' ' := by
      have := dropWhile_head_false hd
      simpa using this
    subst hsp
    have hsplit : r2.takeWhile (fun c => c ≠ ' ') ++ ' ' :: r3 = r2 := by
      rw [← hd]
      exact List.takeWhile_append_dropWhile _ _
    have htok : ' ' ∉ r2.takeWhile (fun c => c ≠ ' ') := by
      intro hmem
      have := List.mem_takeWhile_imp hmem
      simp at this
    have hrhs : specToken u r2
        = if r2.takeWhile (fun c => c ≠ ' ') = "PRIVMSG".toList then specChannel u r3
          else .unknownMessageType := by
      rw [specToken, hd]
    rw [hrhs]
    conv_lhs => rw [← hsplit]
    rw [charIndicesFrom_append]
    rw [ftmGo_skip_run _ _ _ _ _ _ .MessageToken (Or.inr (Or.inl rfl)) htok]
    rw [charIndicesFrom_cons]
    have hslice : byteSlice (pre' ++ (r2.takeWhile (fun c => c ≠ ' ') ++ ' ' :: r3))
        (utf8Len pre') (utf8Len pre' + utf8Len (r2.takeWhile (fun c => c ≠ ' ')))
        = some (r2.takeWhile (fun c => c ≠ ' ')) :=
      byteSlice_append pre' (r2.takeWhile (fun c => c ≠ ' ')) (' ' :: r3)
    rw [ftmGo_token_space_some _ _ _ _ _ _ hslice]
    by_cases hp : r2.takeWhile (fun c => c ≠ ' ') = "PRIVMSG".toList
    · rw [if_pos hp, if_pos hp, utf8Size_space]
      have hre : pre' ++ (r2.takeWhile (fun c => c ≠ ' ') ++ ' ' :: r3)
          = (pre' ++ r2.takeWhile (fun c => c ≠ ' ') ++ [' ']) ++ r3 := by
        simp
      have hlen : utf8Len pre' + utf8Len (r2.takeWhile (fun c => c ≠ ' ')) + 1
          = utf8Len (pre' ++ r2.takeWhile (fun c => c ≠ ' ') ++ [' ']) := by
        simp [utf8Len]
        omega
      rw [hre, hlen]
      exact ftmGo_channel_spec _ r3 u _
    · rw [if_neg hp, if_neg hp]

theorem ftmGo_aui_spec (pre' r1 : List Char) (u : List Char) (m : Nat) :
    ftmGo (pre' ++ r1) (charIndicesFrom (utf8Len pre') r1) .AdditionalUserInfo u m
      = specAUI u r1 := by
  rcases hd : r1.dropWhile (fun c => c ≠ ' ') with _ | ⟨sp, r2⟩
  · have hns : ' ' ∉ r1 := by
      intro hmem
      have := List.dropWhile_eq_nil_iff.mp hd ' ' hmem
      simp at this
    have h0 := ftmGo_skip_run (pre' ++ r1) r1 [] (utf8Len pre') m u
      .AdditionalUserInfo (Or.inl rfl) hns
    rw [List.append_nil] at h0
    rw [h0, ftmGo_nil, specAUI, hd]
  · have hsp : sp = ' ' := by
      have := dropWhile_head_false hd
      simpa using this
    subst hsp
    have hsplit : r1.takeWhile (fun c => c ≠ ' ') ++ ' ' :: r2 = r1 := by
      rw [← hd]
      exact List.takeWhile_append_dropWhile _ _
    have hmid : ' ' ∉ r1.takeWhile (fun c => c ≠ ' ') := by
      intro hmem
      have := List.mem_takeWhile_imp hmem
      simp at this
    have hrhs : specAUI u r1 = specToken u r2 := by
      rw [specAUI, hd]
    rw [hrhs]
    conv_lhs => rw [← hsplit]
    rw [charIndicesFrom_append]
    rw [ftmGo_skip_run _ _ _ _ _ _ .AdditionalUserInfo (Or.inl rfl) hmid]
    rw [charIndicesFrom_cons, ftmGo_aui_space, utf8Size_space]
    have hre : pre' ++ (r1.takeWhile (fun c => c ≠ ' ') ++ ' ' :: r2)
        = (pre' ++ r1.takeWhile (fun c => c ≠ ' ') ++ [' ']) ++ r2 := by
      simp
    have hlen : utf8Len pre' + utf8Len (r1.takeWhile (fun c => c ≠ ' ')) + 1
        = utf8Len (pre' ++ r1.takeWhile (fun c => c ≠ ' ') ++ [' ']) := by
      simp [utf8Len]
      omega
    rw [hre, hlen]
    exact ftmGo_token_spec _ r2 u

/-- The hand-rolled state machine of `from_text_message` agrees with the
split-form reference account on every input. -/
theorem from_text_message_eq_textSpec (raw : List Char) :
    from_text_message raw = textSpec raw := by
  obtain ⟨pre0, hpre0⟩ : ∃ p, raw.takeWhile (fun c => c ≠ '!') = p := ⟨_, rfl⟩
  have hbang' : '!' ∉ pre0 := by
    intro hmem
    rw [← hpre0] at hmem
    have := List.mem_takeWhile_imp hmem
    simp at this
  unfold textSpec
  rw [hpre0]
  by_cases hsp : ' ' ∈ pre0
  · rw [if_pos hsp]
    rcases hd1 : pre0.dropWhile (fun c => c ≠ ' ') with _ | ⟨sp1, p2⟩
    · exact absurd (List.dropWhile_eq_nil_iff.mp hd1 ' ' hsp) (by simp)
    · have hsp1 : sp1 = ' ' := by
        have := dropWhile_head_false hd1
        simpa using this
      subst hsp1
      have hp2 : pre0.takeWhile (fun c => c ≠ ' ') ++ ' ' :: p2 = pre0 := by
        rw [← hd1]
        exact List.takeWhile_append_dropWhile _ _
      have hpre_r : pre0 ++ raw.dropWhile (fun c => c ≠ '!') = raw := by
        rw [← hpre0]
        exact List.takeWhile_append_dropWhile _ _
      have hraw2 : pre0.takeWhile (fun c => c ≠ ' ')
          ++ ' ' :: (p2 ++ raw.dropWhile (fun c => c ≠ '!')) = raw := by
        conv_rhs => rw [← hpre_r]
        conv_rhs => rw [← hp2]
        simp
      have hp1b : '!' ∉ pre0.takeWhile (fun c => c ≠ ' ') := by
        intro hmem
        exact hbang' (mem_of_mem_takeWhile hmem)
      have hp1s : ' ' ∉ pre0.takeWhile (fun c => c ≠ ' ') := by
        intro hmem
        have := List.mem_takeWhile_imp hmem
        simp at this
      unfold from_text_message
      conv_lhs => rw [← hraw2]
      rw [charIndicesFrom_append]
      rw [ftmGo_userName_run _ _ _ _ _ _ hp1b hp1s]
      rw [charIndicesFrom_cons, ftmGo_userName_space]
  · rw [if_neg hsp]
    rcases hd : raw.dropWhile (fun c => c ≠ '!') with _ | ⟨bg, r1⟩
    · have hraw : pre0 = raw := by
        have h1 := List.takeWhile_append_dropWhile (fun c => decide (c ≠ '!')) raw
        rw [hpre0, hd, List.append_nil] at h1
        exact h1
      show from_text_message raw = ParseResult.unknownMessageType
      unfold from_text_message
      have h0 := ftmGo_userName_run raw pre0 [] 0 0 [] hbang' hsp
      rw [List.append_nil, hraw] at h0
      rw [h0, ftmGo_nil]
    · have hbg : bg = '!' := by
        have := dropWhile_head_false hd
        simpa using this
      subst hbg
      have hraw : pre0 ++ '!' :: r1 = raw := by
        have h1 := List.takeWhile_append_dropWhile (fun c => decide (c ≠ '!')) raw
        rw [hpre0, hd] at h1
        exact h1
      show from_text_message raw = specAUI (afterLastColon pre0) r1
      unfold from_text_message
      conv_lhs => rw [← hraw]
      rw [charIndicesFrom_append]
      rw [ftmGo_userName_run _ _ _ _ _ _ hbang' hsp]
      rw [charIndicesFrom_cons]
      simp only [Nat.zero_add, utf8Size_bang]
      have hms : byteSlice (pre0 ++ '!' :: r1) (markerAfterRun 0 0 pre0) (utf8Len pre0)
          = some (afterLastColon pre0) := marker_slice pre0 ('!' :: r1)
      rw [ftmGo_userName_bang_some _ _ _ _ _ _ hms]
      have hre : pre0 ++ '!' :: r1 = (pre0 ++ ['!']) ++ r1 := by
        simp
      have hlen : utf8Len pre0 + 1 = utf8Len (pre0 ++ ['!']) := by
        simp [utf8Len]
      rw [hre, hlen]
      exact ftmGo_aui_spec (pre0 ++ ['!']) r1 (afterLastColon pre0) (markerAfterRun 0 0 pre0)

theorem takeWhile_append_stop (pre rest : List Char) (c : Char) (p : Char → Bool)
    (hpre : ∀ x ∈ pre, p x = true) (hc : p c = false) :
    (pre ++ c :: rest).takeWhile p = pre := by
  rw [takeWhile_append_all p pre (c :: rest) hpre, List.takeWhile_cons, if_neg (by simp [hc]),
    List.append_nil]

theorem dropWhile_append_stop (pre rest : List Char) (c : Char) (p : Char → Bool)
    (hpre : ∀ x ∈ pre, p x = true) (hc : p c = false) :
    (pre ++ c :: rest).dropWhile p = c :: rest := by
  rw [dropWhile_append_all p pre (c :: rest) hpre, List.dropWhile_cons, if_neg (by simp [hc])]

theorem not_mem_all_ne (seg : List Char) (c : Char) (h : c ∉ seg) :
    ∀ x ∈ seg, (decide (x ≠ c)) = true := by
  intro x hx
  simp only [decide_eq_true_eq]
  exact fun hh => h (hh ▸ hx)

/-- Evaluating `from_text_message` on a decomposed input: the scan reaches
state `AdditionalUserInfo` right after the first `!`. -/
theorem ftm_eval_bang (pre rest : List Char) (h1 : '!' ∉ pre) (h2 : ' ' ∉ pre) :
    from_text_message (pre ++ '!' :: rest) = specAUI (afterLastColon pre) rest := by
  rw [from_text_message_eq_textSpec]
  unfold textSpec
  rw [takeWhile_append_stop pre rest '!' _ (not_mem_all_ne pre '!' h1) (by simp)]
  rw [dropWhile_append_stop pre rest '!' _ (not_mem_all_ne pre '!' h1) (by simp)]
  rw [if_neg h2]

theorem specAUI_eval (u mid rest : List Char) (h : ' ' ∉ mid) :
    specAUI u (mid ++ ' ' :: rest) = specToken u rest := by
  rw [specAUI,
    dropWhile_append_stop mid rest ' ' _ (not_mem_all_ne mid ' ' h) (by simp)]

theorem specToken_eval_privmsg (u rest : List Char) :
    specToken u ("PRIVMSG".toList ++ ' ' :: rest) = specChannel u rest := by
  have hns : ' ' ∉ "PRIVMSG".toList := by decide
  rw [specToken,
    dropWhile_append_stop _ rest ' ' _ (not_mem_all_ne _ ' ' hns) (by simp)]
  rw [takeWhile_append_stop _ rest ' ' _ (not_mem_all_ne _ ' ' hns) (by simp)]
  exact if_pos rfl

theorem specToken_eval_other (u tok rest : List Char) (h : ' ' ∉ tok)
    (hne : tok ≠ "PRIVMSG".toList) :
    specToken u (tok ++ ' ' :: rest) = .unknownMessageType := by
  rw [specToken,
    dropWhile_append_stop tok rest ' ' _ (not_mem_all_ne tok ' ' h) (by simp)]
  rw [takeWhile_append_stop tok rest ' ' _ (not_mem_all_ne tok ' ' h) (by simp)]
  exact if_neg hne

theorem specChannel_eval (u chan rest : List Char) (h : ' ' ∉ chan) :
    specChannel u (chan ++ ' ' :: rest) = specMessageText u rest := by
  rw [specChannel,
    dropWhile_append_stop chan rest ' ' _ (not_mem_all_ne chan ' ' h) (by simp)]

theorem specChannel_no_space (u chan : List Char) (h : ' ' ∉ chan) :
    specChannel u chan = .unknownMessageType := by
  rw [specChannel, List.dropWhile_eq_nil_iff.mpr (not_mem_all_ne chan ' ' h)]

theorem specMessageText_one (u : List Char) (b : Char) (body : List Char)
    (h : b.utf8Size = 1) :
    specMessageText u (b :: body) = .ok (.UserMessage ⟨u, trim body⟩) := by
  rw [specMessageText, if_pos h]

theorem parse_head_colon (s : List Char) (h : s.head? = some ':') :
    parse_from_str s = from_text_message s := by
  rw [parse_from_str, if_pos h]

theorem parse_head_other (s : List Char) (h : ¬ s.head? = some ':') :
    parse_from_str s = from_ping_message s := by
  rw [parse_from_str, if_neg h]

theorem from_ping_not_user (s : List Char) (info : MessageInfo) :
    from_ping_message s ≠ .ok (.UserMessage info) := by
  rw [from_ping_message]
  by_cases h : (("PING :".toList).isPrefixOf s) = true
  · rw [if_pos h]
    simp
  · rw [if_neg h]
    simp

/-- Inversion: whenever the split-form reference account accepts a
`UserMessage`, the input decomposes into prefix, user info, `PRIVMSG`
token, channel, and body, and the outputs are determined. -/
theorem textSpec_ok_inv (s : List Char) (info : MessageInfo)
    (h : textSpec s = .ok (.UserMessage info)) :
    ∃ pre mid chan b body,
      s = pre ++ '!' :: (mid ++ ' ' :: ("PRIVMSG".toList ++ ' ' :: (chan ++ ' ' :: b :: body)))
      ∧ '!' ∉ pre ∧ ' ' ∉ pre ∧ ' ' ∉ mid ∧ ' ' ∉ chan ∧ b.utf8Size = 1
      ∧ info.user = afterLastColon pre ∧ info.text = trim body := by
  unfold textSpec at h
  by_cases hsp : ' ' ∈ s.takeWhile (fun c => c ≠ '!')
  · rw [if_pos hsp] at h
    exact absurd h (by simp)
  · rw [if_neg hsp] at h
    rcases hd : s.dropWhile (fun c => c ≠ '!') with _ | ⟨bg, r1⟩
    · rw [hd] at h
      exact absurd h (by simp)
    · rw [hd] at h
      have hbg : bg = '!' := by
        have := dropWhile_head_false hd
        simpa using this
      subst hbg
      have hbang : '!' ∉ s.takeWhile (fun c => c ≠ '!') := by
        intro hmem
        have := List.mem_takeWhile_imp hmem
        simp at this
      have hs_eq : s.takeWhile (fun c => c ≠ '!') ++ '!' :: r1 = s := by
        rw [← hd]
        exact List.takeWhile_append_dropWhile _ _
      have h1 : specAUI (afterLastColon (s.takeWhile (fun c => c ≠ '!'))) r1
          = .ok (.UserMessage info) := h
      clear h
      unfold specAUI at h1
      rcases hd1 : r1.dropWhile (fun c => c ≠ ' ') with _ | ⟨sp1, r2⟩
      · rw [hd1] at h1
        exact absurd h1 (by simp)
      · rw [hd1] at h1
        have hsp1 : sp1 = ' ' := by
          have := dropWhile_head_false hd1
          simpa using this
        subst hsp1
        have hmid : ' ' ∉ r1.takeWhile (fun c => c ≠ ' ') := by
          intro hmem
          have := List.mem_takeWhile_imp hmem
          simp at this
        have hr1_eq : r1.takeWhile (fun c => c ≠ ' ') ++ ' ' :: r2 = r1 := by
          rw [← hd1]
          exact List.takeWhile_append_dropWhile _ _
        have h2 : specToken (afterLastColon (s.takeWhile (fun c => c ≠ '!'))) r2
            = .ok (.UserMessage info) := h1
        clear h1
        unfold specToken at h2
        rcases hd2 : r2.dropWhile (fun c => c ≠ ' ') with _ | ⟨sp2, r3⟩
        · rw [hd2] at h2
          exact absurd h2 (by simp)
        · rw [hd2] at h2
          have hsp2 : sp2 = ' ' := by
            have := dropWhile_head_false hd2
            simpa using this
          subst hsp2
          have h3 : (if r2.takeWhile (fun c => c ≠ ' ') = "PRIVMSG".toList
              then specChannel (afterLastColon (s.takeWhile (fun c => c ≠ '!'))) r3
              else ParseResult.unknownMessageType) = .ok (.UserMessage info) := h2
          clear h2
          by_cases hp : r2.takeWhile (fun c => c ≠ ' ') = "PRIVMSG".toList
          · rw [if_pos hp] at h3
            have hr2_eq : "PRIVMSG".toList ++ ' ' :: r3 = r2 := by
              rw [← hp, ← hd2]
              exact List.takeWhile_append_dropWhile _ _
            unfold specChannel at h3
            rcases hd3 : r3.dropWhile (fun c => c ≠ ' ') with _ | ⟨sp3, r4⟩
            · rw [hd3] at h3
              exact absurd h3 (by simp)
            · rw [hd3] at h3
              have hsp3 : sp3 = ' ' := by
                have := dropWhile_head_false hd3
                simpa using this
              subst hsp3
              have hchan : ' ' ∉ r3.takeWhile (fun c => c ≠ ' ') := by
                intro hmem
                have := List.mem_takeWhile_imp hmem
                simp at this
              have hr3_eq : r3.takeWhile (fun c => c ≠ ' ') ++ ' ' :: r4 = r3 := by
                rw [← hd3]
                exact List.takeWhile_append_dropWhile _ _
              have h4 : specMessageText (afterLastColon (s.takeWhile (fun c => c ≠ '!'))) r4
                  = .ok (.UserMessage info) := h3
              clear h3
              rcases r4 with _ | ⟨b, body⟩
              · rw [specMessageText] at h4
                exact absurd h4 (by simp)
              · rw [specMessageText] at h4
                by_cases hb : b.utf8Size = 1
                · rw [if_pos hb] at h4
                  have hinfo : info
                      = ⟨afterLastColon (s.takeWhile (fun c => c ≠ '!')), trim body⟩ := by
                    injection h4 with h5
                    injection h5 with h6
                    exact h6.symm
                  refine ⟨s.takeWhile (fun c => c ≠ '!'), r1.takeWhile (fun c => c ≠ ' '),
                    r3.takeWhile (fun c => c ≠ ' '), b, body, ?_, hbang, hsp, hmid, hchan,
                    hb, ?_, ?_⟩
                  · conv_lhs => rw [← hs_eq]
                    conv_lhs => rw [← hr1_eq]
                    conv_lhs => rw [← hr2_eq]
                    conv_lhs => rw [← hr3_eq]
                  · rw [hinfo]
                  · rw [hinfo]
                · rw [if_neg hb] at h4
                  exact absurd h4 (by simp)
          · rw [if_neg hp] at h3
            exact absurd h3 (by simp)

/-- Inversion at the `parse_from_str` level: an accepted `UserMessage`
comes through the prefixed branch, and the input decomposes. -/
theorem parse_user_inv (s : List Char) (info : MessageInfo)
    (h : parse_from_str s = .ok (.UserMessage info)) :
    ∃ pre mid chan b body,
      s = pre ++ '!' :: (mid ++ ' ' :: ("PRIVMSG".toList ++ ' ' :: (chan ++ ' ' :: b :: body)))
      ∧ pre.head? = some ':'
      ∧ '!' ∉ pre ∧ ' ' ∉ pre ∧ ' ' ∉ mid ∧ ' ' ∉ chan ∧ b.utf8Size = 1
      ∧ info.user = afterLastColon pre ∧ info.text = trim body := by
  have hhead : s.head? = some ':' := by
    by_contra hne
    rw [parse_head_other s hne] at h
    exact from_ping_not_user s info h
  rw [parse_head_colon s hhead, from_text_message_eq_textSpec] at h
  obtain ⟨pre, mid, chan, b, body, hs, hb1, hb2, hb3, hb4, hb5, hb6, hb7⟩ :=
    textSpec_ok_inv s info h
  refine ⟨pre, mid, chan, b, body, hs, ?_, hb1, hb2, hb3, hb4, hb5, hb6, hb7⟩
  rcases pre with _ | ⟨c, p'⟩
  · rw [hs] at hhead
    simp at hhead
  · rw [hs] at hhead
    simpa using hhead

theorem dropWhile_append_of_ne_nil {α : Type} (p : α → Bool) (x y : List α)
    (h : x.dropWhile p ≠ []) : (x ++ y).dropWhile p = x.dropWhile p ++ y := by
  induction x with
  | nil => simp at h
  | cons a as ih =>
    rw [List.cons_append, List.dropWhile_cons, List.dropWhile_cons]
    by_cases hp : p a
    · rw [if_pos hp, if_pos hp]
      apply ih
      rw [List.dropWhile_cons, if_pos hp] at h
      exact h
    · rw [if_neg hp, if_neg hp, List.cons_append]

/-- Appending whitespace-only framing characters does not change the
trimmed body. -/
theorem trim_append_ws (x fr : List Char) (h : ∀ c ∈ fr, is_whitespace c = true) :
    trim (x ++ fr) = trim x := by
  unfold trim
  by_cases hx : x.dropWhile is_whitespace = []
  · have hxall : ∀ c ∈ x, is_whitespace c = true := List.dropWhile_eq_nil_iff.mp hx
    rw [dropWhile_append_all is_whitespace x fr hxall, hx,
      List.dropWhile_eq_nil_iff.mpr h]
  · rw [dropWhile_append_of_ne_nil _ x fr hx, List.reverse_append,
      dropWhile_append_all is_whitespace fr.reverse _
        (fun c hc => h c (by simpa using hc))]

theorem trim_getLast?_not_ws (x : List Char) (c : Char)
    (h : (trim x).getLast? = some c) : is_whitespace c = false := by
  unfold trim at h
  rw [List.getLast?_reverse] at h
  rcases hd : (x.dropWhile is_whitespace).reverse.dropWhile is_whitespace with _ | ⟨a, r⟩
  · rw [hd] at h
    simp at h
  · rw [hd] at h
    simp only [List.head?_cons, Option.some.injEq] at h
    exact h ▸ dropWhile_head_false hd

theorem trim_head?_not_ws (x : List Char) (c : Char)
    (h : (trim x).head? = some c) : is_whitespace c = false := by
  unfold trim at h
  rw [List.head?_reverse] at h
  rcases hz : (x.dropWhile is_whitespace).reverse.dropWhile is_whitespace with _ | ⟨a, r⟩
  · rw [hz] at h
    simp at h
  · rw [hz] at h
    have hsplit : (x.dropWhile is_whitespace).reverse.takeWhile is_whitespace ++ (a :: r)
        = (x.dropWhile is_whitespace).reverse := by
      rw [← hz]
      exact List.takeWhile_append_dropWhile _ _
    have h2 : (x.dropWhile is_whitespace).reverse.getLast? = some c := by
      rw [← hsplit, List.getLast?_append_of_ne_nil _ (List.cons_ne_nil a r)]
      exact h
    rw [List.getLast?_reverse] at h2
    rcases htt : x.dropWhile is_whitespace with _ | ⟨b0, t'⟩
    · rw [htt] at h2
      simp at h2
    · rw [htt] at h2
      simp only [List.head?_cons, Option.some.injEq] at h2
      exact h2 ▸ dropWhile_head_false htt

theorem ascii_ws_imp_ws (c : Char) (h : is_ascii_whitespace c = true) :
    is_whitespace c = true := by
  unfold is_ascii_whitespace at h
  simp only [Bool.or_eq_true, decide_eq_true_eq] at h
  rcases h with (((h | h) | h) | h) | h <;> subst h <;> decide

theorem utf8Size_eq_one_of_ascii (b : Char) (h : b.toNat < 128) : b.utf8Size = 1 := by
  unfold Char.utf8Size
  rw [if_pos]
  rw [UInt32.le_def]
  exact Nat.le_of_lt_succ h

theorem head?_append_of_head (pre rest : List Char) (h : pre.head? = some ':') :
    (pre ++ rest).head? = some ':' := by
  rcases pre with _ | ⟨c, p⟩
  · simp at h
  · simpa using h

theorem not_ws_not_ascii (c : Char) (h : is_whitespace c = false) :
    is_ascii_whitespace c = false := by
  cases hb : is_ascii_whitespace c
  · rfl
  · exact absurd (ascii_ws_imp_ws c hb) (by rw [h]; simp)

/-- Claim C1 (code bug): `parse_from_str` does NOT return a value on every
input. When the first scalar after the channel-terminating space is
multi-byte (here `é`, two bytes), the body slice at that scalar's byte
offset plus one splits the scalar, and the Rust byte-range indexing panics;
the model evaluates to the `panicked` outcome rather than to a value. -/
theorem parse_panics_on_multibyte_body_start :
    parse_from_str (":n!u@h PRIVMSG #c é".toList) = ParseResult.panicked := by rfl

/-- Claim C2 counterexample: the input `::a!u@h PRIVMSG #c x` is accepted
as a `UserMessage`, yet it contains no ` :` substring at all, and the
returned user `a` differs from the substring `:a` between the first `:`
and the first `!`. -/
theorem userMessage_accepted_without_colon_space :
    parse_from_str ("::a!u@h PRIVMSG #c x".toList)
      = .ok (.UserMessage ⟨"a".toList, []⟩)
    ∧ hasSub (" :".toList) ("::a!u@h PRIVMSG #c x".toList) = false
    ∧ "a".toList ≠ betweenFirstColonBang ("::a!u@h PRIVMSG #c x".toList) := by
  refine ⟨by rfl, by rfl, by decide⟩

/-- Claim C2 (amended): every input accepted as a `UserMessage` contains
`:`, `!`, ` PRIVMSG ` as substrings in that left-to-right order, and the
returned user equals the segment between the LAST `:` before the first `!`
and the first `!`. -/
theorem userMessage_ordered_substrings_and_user (s : List Char) (info : MessageInfo)
    (h : parse_from_str s = .ok (.UserMessage info)) :
    (∃ x y z w, s = x ++ ':' :: (y ++ '!' :: (z ++ " PRIVMSG ".toList ++ w)))
    ∧ info.user = afterLastColon (s.takeWhile (fun c => c ≠ '!')) := by
  obtain ⟨pre, mid, chan, b, body, hs, hh, h1, h2, h3, h4, h5, h6, h7⟩ :=
    parse_user_inv s info h
  constructor
  · rcases pre with _ | ⟨c, p'⟩
    · simp at hh
    · have hc : c = ':' := by simpa using hh
      subst hc
      refine ⟨[], p', mid, chan ++ ' ' :: b :: body, ?_⟩
      rw [hs]
      have hps : (" PRIVMSG ").toList = ' ' :: ("PRIVMSG".toList ++ [' ']) := rfl
      rw [hps]
      simp
  · have hpre : s.takeWhile (fun c => c ≠ '!') = pre := by
      rw [hs]
      exact takeWhile_append_stop pre _ '!' _ (not_mem_all_ne pre '!' h1) (by simp)
    rw [hpre]
    exact h6

/-- Claim C2 amended witness at a concrete accepted input. -/
theorem userMessage_ordered_substrings_and_user_witness :
    (∃ x y z w, (":carkhy!x@y PRIVMSG #chan :hello").toList
        = x ++ ':' :: (y ++ '!' :: (z ++ " PRIVMSG ".toList ++ w)))
    ∧ ("carkhy").toList
        = afterLastColon (((":carkhy!x@y PRIVMSG #chan :hello").toList).takeWhile
            (fun c => c ≠ '!')) :=
  userMessage_ordered_substrings_and_user _ ⟨"carkhy".toList, "hello".toList⟩ (by rfl)

/-- Claim C3 counterexample: the scan rejects only the space character
inside the nickname, so the accepted user `a\tb` contains a tab, which is
whitespace. -/
theorem userMessage_user_contains_tab :
    parse_from_str (":a\tb!u@h PRIVMSG #c :hi".toList)
      = .ok (.UserMessage ⟨"a\tb".toList, "hi".toList⟩)
    ∧ '\t' ∈ ("a\tb").toList ∧ is_ascii_whitespace '\t' = true := by
  refine ⟨by rfl, by decide, by decide⟩

/-- Claim C3 (amended): for every input accepted as a `UserMessage`, the
returned user contains no space, no `!`, and no `:` (other whitespace such
as tab or newline is possible). -/
theorem userMessage_user_no_space_bang_colon (s : List Char) (info : MessageInfo)
    (h : parse_from_str s = .ok (.UserMessage info)) :
    ' ' ∉ info.user ∧ '!' ∉ info.user ∧ ':' ∉ info.user := by
  obtain ⟨pre, mid, chan, b, body, hs, hh, h1, h2, h3, h4, h5, h6, h7⟩ :=
    parse_user_inv s info h
  rw [h6]
  have hsub : ∀ x ∈ afterLastColon pre, x ∈ pre := by
    intro x hx
    unfold afterLastColon at hx
    have hx2 : x ∈ pre.reverse.takeWhile (fun c => c ≠ ':') := by simpa using hx
    have := mem_of_mem_takeWhile hx2
    simpa using this
  refine ⟨fun hmem => h2 (hsub _ hmem), fun hmem => h1 (hsub _ hmem), fun hmem => ?_⟩
  unfold afterLastColon at hmem
  have hx2 : ':' ∈ pre.reverse.takeWhile (fun c => c ≠ ':') := by simpa using hmem
  have := List.mem_takeWhile_imp hx2
  simp at this

/-- Claim C3 amended witness at a concrete accepted input. -/
theorem userMessage_user_no_space_bang_colon_witness :
    ' ' ∉ ("bob").toList ∧ '!' ∉ ("bob").toList ∧ ':' ∉ ("bob").toList :=
  userMessage_user_no_space_bang_colon (":bob!u@h PRIVMSG #c :hey".toList)
    ⟨"bob".toList, "hey".toList⟩ (by rfl)

/-- Claim C4 counterexample: a PING line with an unstripped trailing `\n`
does NOT fail to parse; it parses to a `PingMessage` whose server retains
the `\n` verbatim. -/
theorem ping_trailing_newline_still_parses :
    parse_from_str ("PING :tmi.twitch.tv\n".toList)
      = .ok (.PingMessage ("tmi.twitch.tv\n".toList)) := by rfl

/-- Claim C4 (amended): with trailing `\r`/`\n` framing characters left on
the line, a PING line still parses, the framing characters kept verbatim at
the end of the server field (the PING branch does not trim), while a
user-message line parses to the same result as without them: they are
removed from the text field by trimming. -/
theorem trailing_framing_chars_amended (s fr : List Char)
    (hfr : ∀ c ∈ fr, c = '\r' ∨ c = '\n') :
    ((("PING :".toList).isPrefixOf s) = true →
        parse_from_str (s ++ fr) = .ok (.PingMessage (s.drop 6 ++ fr)))
    ∧ (∀ info, parse_from_str s = .ok (.UserMessage info) →
        parse_from_str (s ++ fr) = .ok (.UserMessage info)) := by
  have hfrws : ∀ c ∈ fr, is_whitespace c = true := by
    intro c hc
    rcases hfr c hc with h | h <;> subst h <;> decide
  constructor
  · intro hp
    have hpre : "PING :".toList <+: s := List.isPrefixOf_iff_prefix.mp hp
    obtain ⟨tail0, htail⟩ := hpre
    have hP : "PING :".toList = 'P' :: "ING :".toList := rfl
    have hhead : ¬ (s ++ fr).head? = some ':' := by
      rw [← htail, hP]
      simp
    rw [parse_head_other _ hhead, from_ping_message]
    have hp2 : (("PING :".toList).isPrefixOf (s ++ fr)) = true := by
      rw [List.isPrefixOf_iff_prefix]
      exact List.IsPrefix.trans ⟨tail0, htail⟩ (List.prefix_append s fr)
    rw [if_pos hp2]
    have hd6 : (s ++ fr).drop 6 = s.drop 6 ++ fr := by
      rw [← htail, List.append_assoc]
      have h66 : ("PING :".toList).length = 6 := rfl
      rw [← h66, List.drop_left, List.drop_left]
    rw [hd6]
  · intro info hu
    obtain ⟨pre, mid, chan, b, body, hs, hh, h1, h2, h3, h4, h5, h6, h7⟩ :=
      parse_user_inv s info hu
    have hsf : s ++ fr = pre ++ '!' :: (mid ++ ' '
        :: ("PRIVMSG".toList ++ ' ' :: (chan ++ ' ' :: b :: (body ++ fr)))) := by
      rw [hs]
      simp
    have hhead2 : (s ++ fr).head? = some ':' := by
      rw [hsf]
      exact head?_append_of_head pre _ hh
    rw [parse_head_colon _ hhead2, hsf, ftm_eval_bang _ _ h1 h2,
      specAUI_eval _ _ _ h3, specToken_eval_privmsg, specChannel_eval _ _ _ h4,
      specMessageText_one _ _ _ h5, trim_append_ws _ _ hfrws, ← h6, ← h7]

/-- Claim C4 amended witness: both halves applied at concrete inputs. -/
theorem trailing_framing_chars_amended_witness :
    parse_from_str ("PING :x".toList ++ ('\n' :: []))
      = .ok (.PingMessage (("PING :x".toList).drop 6 ++ ('\n' :: [])))
    ∧ parse_from_str (":ann!u@h PRIVMSG #c :ok".toList ++ ('\n' :: []))
      = .ok (.UserMessage ⟨"ann".toList, "ok".toList⟩) :=
  ⟨(trailing_framing_chars_amended ("PING :x".toList) ('\n' :: [])
      (by decide)).1 (by rfl),
   (trailing_framing_chars_amended (":ann!u@h PRIVMSG #c :ok".toList) ('\n' :: [])
      (by decide)).2 ⟨"ann".toList, "ok".toList⟩ (by rfl)⟩

/-- Claim C5: a line not beginning with `:` is accepted exactly when it
begins with the 6-character prefix `PING :`; on acceptance the server field
is the verbatim remainder from index 6, otherwise the result is
`UnknownMessageType`. -/
theorem ping_branch_characterization (s : List Char) (h : ¬ s.head? = some ':') :
    parse_from_str s
      = if ("PING :".toList).isPrefixOf s then .ok (.PingMessage (s.drop 6))
        else .unknownMessageType := by
  rw [parse_head_other s h]
  rfl

/-- Claim C5 witness at the canonical PING input. -/
theorem ping_branch_characterization_witness :
    parse_from_str ("PING :tmi.twitch.tv".toList)
      = if ("PING :".toList).isPrefixOf ("PING :tmi.twitch.tv".toList)
        then .ok (.PingMessage (("PING :tmi.twitch.tv".toList).drop 6))
        else .unknownMessageType :=
  ping_branch_characterization _ (by decide)

/-- Claim C6: for every input accepted as a `UserMessage`, the text field
has no leading and no trailing ASCII whitespace. -/
theorem userMessage_text_no_edge_ascii_ws (s : List Char) (info : MessageInfo)
    (h : parse_from_str s = .ok (.UserMessage info)) :
    (∀ c, info.text.head? = some c → is_ascii_whitespace c = false)
    ∧ (∀ c, info.text.getLast? = some c → is_ascii_whitespace c = false) := by
  obtain ⟨pre, mid, chan, b, body, hs, hh, h1, h2, h3, h4, h5, h6, h7⟩ :=
    parse_user_inv s info h
  rw [h7]
  constructor
  · intro c hc
    exact not_ws_not_ascii c (trim_head?_not_ws body c hc)
  · intro c hc
    exact not_ws_not_ascii c (trim_getLast?_not_ws body c hc)

/-- Claim C6 witness at a concrete accepted input. -/
theorem userMessage_text_no_edge_ascii_ws_witness :
    (∀ c, ("hi there".toList).head? = some c → is_ascii_whitespace c = false)
    ∧ (∀ c, ("hi there".toList).getLast? = some c → is_ascii_whitespace c = false) :=
  userMessage_text_no_edge_ascii_ws (":u!a@b PRIVMSG #c :hi there".toList)
    ⟨"u".toList, "hi there".toList⟩ (by rfl)

/-- Claim C7: in the prefixed branch, a space-delimited command token other
than `PRIVMSG` (byte-for-byte) makes the parse fail with
`UnknownMessageType`. -/
theorem privmsg_token_required (pre mid tok rest : List Char)
    (hh : pre.head? = some ':') (h1 : '!' ∉ pre) (h2 : ' ' ∉ pre)
    (h3 : ' ' ∉ mid) (h4 : ' ' ∉ tok) (h5 : tok ≠ "PRIVMSG".toList) :
    parse_from_str (pre ++ '!' :: (mid ++ ' ' :: (tok ++ ' ' :: rest)))
      = .unknownMessageType := by
  rw [parse_head_colon _ (head?_append_of_head pre _ hh), ftm_eval_bang _ _ h1 h2,
    specAUI_eval _ _ _ h3, specToken_eval_other _ _ _ h4 h5]

/-- Claim C7 witness: the JOIN example from the specification. -/
theorem privmsg_token_required_witness :
    parse_from_str (":x!y@z JOIN #c".toList) = .unknownMessageType :=
  privmsg_token_required (":x".toList) ("y@z".toList) ("JOIN".toList) ("#c".toList)
    (by rfl) (by decide) (by decide) (by decide) (by decide) (by decide)

/-- Claim C8: a PRIVMSG line that ends at the channel token (no
body-separating space, hence no body) yields `UnknownMessageType`: the scan
ends before the MessageText emission. -/
theorem privmsg_without_body_rejected (pre mid chan : List Char)
    (hh : pre.head? = some ':') (h1 : '!' ∉ pre) (h2 : ' ' ∉ pre)
    (h3 : ' ' ∉ mid) (h4 : ' ' ∉ chan) :
    parse_from_str (pre ++ '!' :: (mid ++ ' ' :: ("PRIVMSG".toList ++ ' ' :: chan)))
      = .unknownMessageType := by
  rw [parse_head_colon _ (head?_append_of_head pre _ hh), ftm_eval_bang _ _ h1 h2,
    specAUI_eval _ _ _ h3, specToken_eval_privmsg, specChannel_no_space _ _ h4]

/-- Claim C8 witness: the bodyless example from the specification. -/
theorem privmsg_without_body_rejected_witness :
    parse_from_str (":nick!u@h PRIVMSG #c".toList) = .unknownMessageType :=
  privmsg_without_body_rejected (":nick".toList) ("u@h".toList) ("#c".toList)
    (by rfl) (by decide) (by decide) (by decide) (by decide)

/-- Claim C9: the carkhy example parses to user `carkhy` with the expected
text, and the same line with a trailing `\n` parses to the identical
output. -/
theorem carkhy_examples :
    parse_from_str (":carkhy!carkhy@carkhy.tmi.twitch.tv PRIVMSG #captaincallback :a function that takes a string and returns the message".toList)
      = .ok (.UserMessage ⟨"carkhy".toList,
          "a function that takes a string and returns the message".toList⟩)
    ∧ parse_from_str ((":carkhy!carkhy@carkhy.tmi.twitch.tv PRIVMSG #captaincallback :a function that takes a string and returns the message\n").toList)
      = .ok (.UserMessage ⟨"carkhy".toList,
          "a function that takes a string and returns the message".toList⟩) :=
  ⟨by rfl, by rfl⟩

/-- Claim C10: when exactly one ASCII scalar follows the
channel-terminating space, the parse succeeds with an empty text: the first
scalar after that space is skipped from the body whether or not it is the
`:` sigil. -/
theorem single_ascii_body_scalar_empty_text (pre mid chan : List Char) (b : Char)
    (hh : pre.head? = some ':') (h1 : '!' ∉ pre) (h2 : ' ' ∉ pre)
    (h3 : ' ' ∉ mid) (h4 : ' ' ∉ chan) (h5 : b.toNat < 128) :
    parse_from_str
        (pre ++ '!' :: (mid ++ ' ' :: ("PRIVMSG".toList ++ ' ' :: (chan ++ ' ' :: b :: []))))
      = .ok (.UserMessage ⟨afterLastColon pre, []⟩) := by
  rw [parse_head_colon _ (head?_append_of_head pre _ hh), ftm_eval_bang _ _ h1 h2,
    specAUI_eval _ _ _ h3, specToken_eval_privmsg, specChannel_eval _ _ _ h4,
    specMessageText_one _ _ _ (utf8Size_eq_one_of_ascii b h5)]
  rfl

/-- Claim C10 witness: a lone `:` sigil after the channel gives an empty
text. -/
theorem single_ascii_body_scalar_empty_text_witness :
    parse_from_str (":n!u@h PRIVMSG #c :".toList)
      = .ok (.UserMessage ⟨"n".toList, []⟩) :=
  single_ascii_body_scalar_empty_text (":n".toList) ("u@h".toList) ("#c".toList) ':'
    (by rfl) (by decide) (by decide) (by decide) (by decide) (by decide)

end Twitch
